import Mathlib

/-!
Verification of the PostParaphrase quota/referral/generation core.

This file gives a shallow embedding of the repository's core logic:

* `utils/helpers.py` — `split_paraphrases`, `fallback_paraphrase` (the text
  splitter), including a faithful model of the Python regular expressions it
  uses, restricted to ASCII (the repository's prompts and delimiters are
  ASCII);
* `utils/gemini_utils.py` — `GeminiManager.generate_paraphrases` and
  `GeminiManager._call_gemini`, with the external provider modelled as a
  function from the attempt number to either an exception (`Except.error`)
  or the extracted response text (`Except.ok`);
* `utils/firebase_utils.py` — the Firestore-backed account/referral state,
  modelled as an association list keyed by user id (Firestore documents with
  missing fields read through `.get(key, default)` are modelled by a record
  holding the default values);
* `handlers/paraphrase_handler.py` — `handle_paraphrase_request`, the
  per-request policy.

Integer counters are modelled as `Nat`: in the source they are Python ints
that are only ever assigned non-negative values (counts come from the
validated set {1, 2, 4}, and `paraphrase_today` is floored at 0 by
`max(0, ...)`; for such values Python's `max(0, x - y)` coincides with
truncated `Nat` subtraction).

Dates are opaque strings (the source formats and compares
`"%Y-%m-%d"`-strings); the ambient "today" value is passed explicitly.
-/

/-! ## Python string primitives (ASCII model) -/

/-- Python's `\s` / `str.strip` whitespace class, ASCII fragment. -/
def isSpaceB (c : Char) : Bool :=
  c = ' ' || c = '\t' || c = '\n' || c = '\r' || c = '\x0b' || c = '\x0c'

/-- Python's `\d`, ASCII fragment. -/
def isDigitB (c : Char) : Bool :=
  '0' ≤ c && c ≤ '9'

/-- Remove leading whitespace (Python `str.lstrip`). -/
def lstripL (cs : List Char) : List Char :=
  cs.dropWhile isSpaceB

/-- Remove trailing whitespace (Python `str.rstrip`). -/
def rstripL : List Char → List Char
  | [] => []
  | c :: t =>
    if rstripL t = [] then (if isSpaceB c then [] else [c]) else c :: rstripL t

/-- Python `str.strip` on character lists. -/
def pyStripL (cs : List Char) : List Char :=
  rstripL (lstripL cs)

/-- Python `str.strip`. -/
def pyStrip (s : String) : String :=
  String.mk (pyStripL s.data)

/-- `leadsWith pat cs` holds iff `pat` is a prefix of `cs`
(Python `str.startswith`). -/
def leadsWith : List Char → List Char → Bool
  | [], _ => true
  | _ :: _, [] => false
  | p :: ps, c :: cs => p = c && leadsWith ps cs

/-- `containsSub pat cs` holds iff `pat` occurs as a contiguous substring of
`cs` (Python `pat in cs`). -/
def containsSub (pat : List Char) : List Char → Bool
  | [] => leadsWith pat []
  | c :: cs => leadsWith pat (c :: cs) || containsSub pat cs

/-- One scanning pass of Python `str.split(sep)` for a non-empty separator:
splits at each leftmost non-overlapping occurrence of `sep`.  `fuel` bounds
the recursion; every step consumes at least one character, so
`cs.length + 1` fuel is always enough. -/
def splitOnAux (sep : List Char) : Nat → List Char → List Char → List (List Char)
  | 0, acc, _ => [acc.reverse]
  | _ + 1, acc, [] => [acc.reverse]
  | fuel + 1, acc, c :: cs =>
    if leadsWith sep (c :: cs) then
      acc.reverse :: splitOnAux sep fuel [] ((c :: cs).drop sep.length)
    else
      splitOnAux sep fuel (c :: acc) cs

/-- Python `str.split(sep)` for a non-empty separator. -/
def pySplitSep (sep cs : List Char) : List (List Char) :=
  splitOnAux sep (cs.length + 1) [] cs

/-- Python `str.split()` (split on whitespace runs, dropping empty pieces). -/
def wsSplit (cs : List Char) : List (List Char) :=
  (cs.splitOnP isSpaceB).filter (fun w => w ≠ [])

/-! ## Basic lemmas about the string primitives -/

theorem leadsWith_self_append (p t : List Char) : leadsWith p (p ++ t) = true := by
  induction p with
  | nil => rfl
  | cons c cs ih => simp [leadsWith, ih]

theorem leadsWith_length_le {p u : List Char} (h : leadsWith p u = true) :
    p.length ≤ u.length := by
  induction p generalizing u with
  | nil => simp
  | cons c cs ih =>
    cases u with
    | nil => simp [leadsWith] at h
    | cons d ds =>
      simp only [leadsWith, Bool.and_eq_true] at h
      simpa [List.length_cons] using Nat.succ_le_succ (ih h.2)

theorem leadsWith_iff_take {p u : List Char} :
    leadsWith p u = true ↔ p.length ≤ u.length ∧ u.take p.length = p := by
  induction p generalizing u with
  | nil => simp [leadsWith]
  | cons c cs ih =>
    cases u with
    | nil => simp [leadsWith]
    | cons d ds =>
      simp only [leadsWith, Bool.and_eq_true, decide_eq_true_eq, List.length_cons,
        Nat.succ_le_succ_iff, List.take, List.cons.injEq, ih]
      constructor
      · rintro ⟨h1, h2, h3⟩; exact ⟨h2, h1.symm, h3⟩
      · rintro ⟨h1, h2, h3⟩; exact ⟨h2.symm, h1, h3⟩

theorem leadsWith_append_of_leadsWith {p u : List Char} (t : List Char)
    (h : leadsWith p u = true) : leadsWith p (u ++ t) = true := by
  induction p generalizing u with
  | nil => rfl
  | cons c cs ih =>
    cases u with
    | nil => simp [leadsWith] at h
    | cons d ds =>
      simp only [leadsWith, Bool.and_eq_true] at h ⊢
      exact ⟨h.1, ih h.2⟩

theorem containsSub_of_leadsWith_drop {pat cs : List Char} (i : Nat)
    (h : leadsWith pat (cs.drop i) = true) : containsSub pat cs = true := by
  induction cs generalizing i with
  | nil =>
    simp only [List.drop_nil] at h
    simpa [containsSub] using h
  | cons c rest ih =>
    cases i with
    | zero =>
      simp only [List.drop_zero] at h
      simp [containsSub, h]
    | succ j =>
      simp only [List.drop_succ_cons] at h
      simp [containsSub, ih j h]

theorem exists_drop_of_containsSub {pat cs : List Char}
    (h : containsSub pat cs = true) : ∃ i, leadsWith pat (cs.drop i) = true := by
  induction cs with
  | nil => exact ⟨0, by simpa [containsSub] using h⟩
  | cons c rest ih =>
    simp only [containsSub, Bool.or_eq_true] at h
    rcases h with h | h
    · exact ⟨0, by simpa using h⟩
    · rcases ih h with ⟨i, hi⟩
      exact ⟨i + 1, by simpa using hi⟩

/-- An occurrence inside the right part of an append is an occurrence in the
whole list. -/
theorem containsSub_append_left {pat t : List Char} (a : List Char)
    (h : containsSub pat t = true) : containsSub pat (a ++ t) = true := by
  induction a with
  | nil => simpa using h
  | cons c rest ih => simp [containsSub, ih]

/-- An occurrence inside the left part of an append is an occurrence in the
whole list. -/
theorem containsSub_append_right {pat a : List Char} (t : List Char)
    (h : containsSub pat a = true) : containsSub pat (a ++ t) = true := by
  rcases exists_drop_of_containsSub h with ⟨i, hi⟩
  rcases Nat.le_total a.length i with hle | hle
  · rw [List.drop_of_length_le hle] at hi
    cases pat with
    | nil => exact containsSub_of_leadsWith_drop 0 (by simp [leadsWith])
    | cons p ps => simp [leadsWith] at hi
  · have : (a ++ t).drop i = a.drop i ++ t := List.drop_append_of_le_length hle
    exact containsSub_of_leadsWith_drop i
      (this ▸ leadsWith_append_of_leadsWith t hi)

/-! ## Strip lemmas -/

theorem lstripL_idem (l : List Char) : lstripL (lstripL l) = lstripL l := by
  induction l with
  | nil => rfl
  | cons c t ih =>
    by_cases h : isSpaceB c = true
    · simpa [lstripL, List.dropWhile, h] using ih
    · simp [lstripL, List.dropWhile, h]

theorem rstripL_idem (l : List Char) : rstripL (rstripL l) = rstripL l := by
  induction l with
  | nil => rfl
  | cons c t ih =>
    by_cases h : rstripL t = []
    · by_cases hc : isSpaceB c = true
      · simp [rstripL, h, hc]
      · simp [rstripL, h, hc]
    · simp [rstripL, h, ih]

theorem lstripL_rstripL_comm (l : List Char) :
    lstripL (rstripL l) = rstripL (lstripL l) := by
  induction l with
  | nil => rfl
  | cons c t ih =>
    by_cases hc : isSpaceB c = true
    · by_cases h : rstripL t = []
      · have h2 : rstripL (List.dropWhile isSpaceB t) = [] := by
          have := ih
          simp only [lstripL] at this
          rw [← this, h]; rfl
        simp [rstripL, lstripL, List.dropWhile, h, hc, h2]
      · have ih' := ih
        simp only [lstripL] at ih'
        simp [rstripL, lstripL, List.dropWhile, h, hc, ih']
    · by_cases h : rstripL t = []
      · simp [rstripL, lstripL, List.dropWhile, h, hc]
      · simp [rstripL, lstripL, List.dropWhile, h, hc]

theorem pyStripL_lstripL (l : List Char) : pyStripL (lstripL l) = pyStripL l := by
  simp [pyStripL, lstripL_idem]

theorem pyStripL_rstripL (l : List Char) : pyStripL (rstripL l) = pyStripL l := by
  simp only [pyStripL]
  rw [lstripL_rstripL_comm l, rstripL_idem]

theorem pyStripL_idem (l : List Char) : pyStripL (pyStripL l) = pyStripL l := by
  simp only [pyStripL]
  rw [lstripL_rstripL_comm (lstripL l), rstripL_idem, lstripL_idem]

theorem rstripL_eq_nil_iff (l : List Char) :
    rstripL l = [] ↔ l.all isSpaceB := by
  induction l with
  | nil => simp [rstripL]
  | cons c t ih =>
    by_cases h : rstripL t = []
    · by_cases hc : isSpaceB c = true
      · simp [rstripL, h, hc, ih.mp h]
      · simp [rstripL, h, hc]
    · constructor
      · intro hh
        exfalso
        by_cases hc : isSpaceB c = true <;> simp [rstripL, h, hc] at hh
      · intro hh
        simp only [List.all_cons, Bool.and_eq_true] at hh
        exact absurd (ih.mpr hh.2) h

theorem lstripL_eq_nil_iff (l : List Char) :
    lstripL l = [] ↔ l.all isSpaceB := by
  induction l with
  | nil => simp [lstripL]
  | cons c t ih =>
    by_cases hc : isSpaceB c = true
    · simp only [lstripL, List.dropWhile, hc, List.all_cons, Bool.true_and]
      exact ih
    · simp [lstripL, List.dropWhile, hc]

theorem lstripL_ne_nil_of_pyStripL_ne_nil {l : List Char}
    (h : pyStripL l ≠ []) : lstripL l ≠ [] := by
  intro hl
  exact h (by simp [pyStripL, hl]; rfl)

theorem rstripL_ne_nil_of_pyStripL_ne_nil {l : List Char}
    (h : pyStripL l ≠ []) : rstripL l ≠ [] := by
  intro hr
  apply h
  have hall : l.all isSpaceB := (rstripL_eq_nil_iff l).mp hr
  have : lstripL l = [] := (lstripL_eq_nil_iff l).mpr hall
  simp [pyStripL, this]; rfl

theorem lstripL_append_of_ne_nil {a : List Char} (b : List Char)
    (h : lstripL a ≠ []) : lstripL (a ++ b) = lstripL a ++ b := by
  induction a with
  | nil => exact absurd rfl h
  | cons c t ih =>
    by_cases hc : isSpaceB c = true
    · have ht : lstripL t ≠ [] := by
        simpa [lstripL, List.dropWhile, hc] using h
      simpa [lstripL, List.dropWhile, hc] using ih ht
    · simp [lstripL, List.dropWhile, hc]

theorem rstripL_append_of_ne_nil (a : List Char) {b : List Char}
    (h : rstripL b ≠ []) : rstripL (a ++ b) = a ++ rstripL b := by
  induction a with
  | nil => simp
  | cons c t ih =>
    have ht : rstripL (t ++ b) ≠ [] := by
      rw [ih]
      simp [h]
    show rstripL (c :: (t ++ b)) = c :: (t ++ rstripL b)
    rw [rstripL, if_neg ht, ih]

/-! ## The sentinel separator -/

/-- The explicit separator token used by the prompt and the splitter
(`helpers.py`, `gemini_utils.py`). -/
def SEP : String := "###PARAPHRASE_SEPARATOR###"

/-- The separator as a character list. -/
def sepL : List Char := SEP.data

/-- The first three characters of the separator. -/
def hash3 : List Char := ['#', '#', '#']

/-- A segment is *safe* when the separator does not occur in it, not even at
the junction with a following separator (the separator starts with `###`).
Splitting a separator-joined list recovers exactly the safe segments. -/
def SafeSeg (s : List Char) : Prop := containsSub sepL (s ++ hash3) = false

theorem sepL_length : sepL.length = 26 := by decide

theorem sepL_ne_nil : sepL ≠ [] := by decide

/-- The separator has no period shorter than 23: a proper overlap of the
separator with itself must reuse the final `###`. -/
theorem sepL_no_short_period :
    ∀ l : Fin 23, 1 ≤ l.val → sepL.drop l.val ≠ sepL.take (26 - l.val) := by
  decide

/-- The separator agrees with `###` on its first three characters. -/
theorem sepL_take_eq_hash3_take : ∀ k : Fin 4, sepL.take k.val = hash3.take k.val := by
  decide

theorem leadsWith_of_leadsWith_append {p u t : List Char}
    (h : leadsWith p (u ++ t) = true) (hl : p.length ≤ u.length) :
    leadsWith p u = true := by
  rw [leadsWith_iff_take] at h ⊢
  refine ⟨hl, ?_⟩
  rw [List.take_append_of_le_length hl] at h
  exact h.2

/-- Safety kills every match that starts strictly inside the segment, when
the segment is followed by a separator. -/
theorem not_leadsWith_of_safeSeg {s : List Char} (hS : SafeSeg s) (r : List Char)
    {i : Nat} (hi : i < s.length) :
    leadsWith sepL (s.drop i ++ (sepL ++ r)) = false := by
  by_contra hcon
  rw [Bool.not_eq_false] at hcon
  set u := s.drop i with hu
  have hulen : u.length = s.length - i := by simp [hu]
  have hl1 : 1 ≤ u.length := by omega
  rcases Nat.le_total sepL.length u.length with hge | hle
  · -- the whole separator fits inside the segment
    have : leadsWith sepL u = true := leadsWith_of_leadsWith_append hcon hge
    have : containsSub sepL s = true := containsSub_of_leadsWith_drop i this
    have : containsSub sepL (s ++ hash3) = true := containsSub_append_right hash3 this
    exact absurd this (by simpa [SafeSeg] using hS)
  · -- the match overlaps the following separator
    have htake : (u ++ (sepL ++ r)).take sepL.length = sepL :=
      (leadsWith_iff_take.mp hcon).2
    rw [List.take_append_eq_append_take, List.take_of_length_le hle,
      List.take_append_eq_append_take] at htake
    have h26 : sepL.length - u.length - sepL.length = 0 := by omega
    rw [h26, List.take_zero, List.append_nil] at htake
    -- htake : u ++ sepL.take (sepL.length - u.length) = sepL
    rcases Nat.lt_or_ge u.length 23 with hlt | hge23
    · -- a period shorter than 23: impossible
      have hdrop : sepL.drop u.length = sepL.take (sepL.length - u.length) := by
        have h2 := congrArg (List.drop u.length) htake
        rw [List.drop_left] at h2
        exact h2.symm
      have := sepL_no_short_period ⟨u.length, hlt⟩ hl1
      rw [sepL_length] at hdrop
      exact this hdrop
    · -- overlap of at most 3 characters: the separator occurs in `s ++ ###`
      set k := sepL.length - u.length with hkdef
      have hk : k < 4 := by
        rw [hkdef, sepL_length]; omega
      have hht : sepL.take k = hash3.take k := sepL_take_eq_hash3_take ⟨k, hk⟩
      have hpre : leadsWith sepL (u ++ hash3) = true := by
        have heq : u ++ hash3 = sepL ++ hash3.drop k := by
          conv_lhs => rw [← List.take_append_drop k hash3]
          rw [← List.append_assoc, ← hht, htake]
        rw [heq]
        exact leadsWith_self_append _ _
      have hdropI : (s ++ hash3).drop i = u ++ hash3 :=
        List.drop_append_of_le_length (Nat.le_of_lt hi)
      have : containsSub sepL (s ++ hash3) = true :=
        containsSub_of_leadsWith_drop i (hdropI ▸ hpre)
      exact absurd this (by simpa [SafeSeg] using hS)

/-! ## Splitting on the separator: scan lemmas -/

/-- The result of `splitOnAux` does not depend on the fuel, as long as the
fuel exceeds the input length. -/
theorem splitOnAux_fuel_irrel {sep : List Char} (hsep : sep ≠ []) :
    ∀ f1 {f2 acc} (cs : List Char), cs.length < f1 → cs.length < f2 →
      splitOnAux sep f1 acc cs = splitOnAux sep f2 acc cs := by
  intro f1
  induction f1 with
  | zero => intro f2 acc cs h1 _; omega
  | succ f ih =>
    intro f2 acc cs h1 h2
    cases f2 with
    | zero => omega
    | succ g =>
      cases cs with
      | nil => rfl
      | cons c rest =>
        by_cases hlw : leadsWith sep (c :: rest) = true
        · have hs1 : 1 ≤ sep.length := by
            cases sep with
            | nil => exact absurd rfl hsep
            | cons _ _ => simp
          have hdl : ((c :: rest).drop sep.length).length ≤ rest.length := by
            rw [List.length_drop]
            simp only [List.length_cons]
            omega
          have hr1 : rest.length < f := by
            simp only [List.length_cons] at h1; omega
          have hr2 : rest.length < g := by
            simp only [List.length_cons] at h2; omega
          simp only [splitOnAux, hlw, if_true]
          congr 1
          exact ih _ (by omega) (by omega)
        · simp only [splitOnAux, hlw, if_false, Bool.false_eq_true]
          have : rest.length < f ∧ rest.length < g := by
            simp only [List.length_cons] at h1 h2; omega
          exact ih _ this.1 this.2

/-- Scanning through a prefix in which no separator match can start. -/
theorem splitOnAux_scan (sep : List Char) :
    ∀ (s : List Char) {t acc fuel},
      (∀ i, i < s.length → leadsWith sep (s.drop i ++ t) = false) →
      (s ++ t).length < fuel →
      splitOnAux sep fuel acc (s ++ t)
        = splitOnAux sep (fuel - s.length) (s.reverse ++ acc) t := by
  intro s
  induction s with
  | nil => intro t acc fuel _ _; simp
  | cons c s' ih =>
    intro t acc fuel hno hfuel
    cases fuel with
    | zero => omega
    | succ f =>
      have h0 : leadsWith sep (c :: (s' ++ t)) = false := by
        have := hno 0 (by simp)
        simpa using this
      show splitOnAux sep (f + 1) acc (c :: (s' ++ t)) = _
      rw [splitOnAux, if_neg (by simp [h0])]
      have hno' : ∀ i, i < s'.length → leadsWith sep (s'.drop i ++ t) = false := by
        intro i hi
        have := hno (i + 1) (by simp; omega)
        simpa using this
      have hfuel' : (s' ++ t).length < f := by
        simp only [List.length_append, List.length_cons] at hfuel ⊢; omega
      rw [ih hno' hfuel']
      have : s'.reverse ++ (c :: acc) = (c :: s').reverse ++ acc := by
        simp
      rw [this]
      congr 1
      simp only [List.length_cons]
      omega

/-- Consuming one separator occurrence at the front. -/
theorem splitOnAux_sep_step {sep : List Char} (hsep : sep ≠ []) (t acc : List Char)
    (fuel : Nat) :
    splitOnAux sep (fuel + 1) acc (sep ++ t)
      = acc.reverse :: splitOnAux sep fuel [] t := by
  cases sep with
  | nil => exact absurd rfl hsep
  | cons p ps =>
    show splitOnAux (p :: ps) (fuel + 1) acc (p :: (ps ++ t)) = _
    rw [splitOnAux, if_pos]
    · congr 1
      have : (p :: (ps ++ t)).drop (p :: ps).length = t := by
        exact List.drop_left (p :: ps) t
      rw [this]
    · exact leadsWith_self_append (p :: ps) t

/-! ## Joining with the separator, and the round trip -/

/-- Join segments with the separator token between consecutive segments. -/
def joinSepL : List (List Char) → List Char
  | [] => []
  | [s] => s
  | s :: rest => s ++ sepL ++ joinSepL rest

/-- Join string segments with the separator token. -/
def sepJoin (segs : List String) : String :=
  String.mk (joinSepL (segs.map String.data))

theorem joinSepL_cons_cons (s r : List Char) (rest : List (List Char)) :
    joinSepL (s :: r :: rest) = s ++ (sepL ++ joinSepL (r :: rest)) := by
  simp [joinSepL]

/-- Splitting a single segment that does not contain the separator returns
the segment alone. -/
theorem pySplitSep_single {s : List Char} (hs : containsSub sepL s = false) :
    pySplitSep sepL s = [s] := by
  have hno : ∀ i, i < s.length → leadsWith sepL (s.drop i ++ ([] : List Char)) = false := by
    intro i hi
    rw [List.append_nil]
    by_contra hcon
    rw [Bool.not_eq_false] at hcon
    rw [containsSub_of_leadsWith_drop i hcon] at hs
    simp at hs
  have := @splitOnAux_scan sepL s [] [] (s.length + 1) hno (by simp)
  rw [pySplitSep]
  rw [List.append_nil] at this
  rw [this]
  have : s.length + 1 - s.length = 1 := by omega
  rw [this]
  simp [splitOnAux]

/-- The central round-trip property of Python `str.split`: splitting a
separator-joined list recovers the segments, provided no separator occurrence
starts inside a segment (the last segment only has to avoid containing the
separator outright, since no separator follows it). -/
theorem pySplitSep_joinSepL :
    ∀ parts : List (List Char), ∀ hne : parts ≠ [],
      (∀ s ∈ parts.dropLast, SafeSeg s) →
      containsSub sepL (parts.getLast hne) = false →
      pySplitSep sepL (joinSepL parts) = parts := by
  intro parts
  induction parts with
  | nil => intro hne; exact absurd rfl hne
  | cons s rest ih =>
    intro hne hinit hlast
    cases rest with
    | nil =>
      have : containsSub sepL s = false := by
        simpa [List.getLast] using hlast
      simpa [joinSepL] using pySplitSep_single this
    | cons r rest' =>
      have hSafeS : SafeSeg s := by
        apply hinit
        simp [List.dropLast]
      set J := joinSepL (r :: rest') with hJ
      have htext : joinSepL (s :: r :: rest') = s ++ (sepL ++ J) :=
        joinSepL_cons_cons s r rest'
      rw [htext]
      rw [pySplitSep]
      set N := (s ++ (sepL ++ J)).length + 1 with hN
      have hNlen : (s ++ (sepL ++ J)).length < N := by omega
      have hno : ∀ i, i < s.length →
          leadsWith sepL (s.drop i ++ (sepL ++ J)) = false := by
        intro i hi
        exact not_leadsWith_of_safeSeg hSafeS J hi
      rw [splitOnAux_scan sepL s hno hNlen]
      have hNs : N - s.length = (sepL ++ J).length + 1 := by
        rw [hN]
        simp only [List.length_append]
        omega
      rw [hNs]
      rw [splitOnAux_sep_step sepL_ne_nil J (s.reverse ++ []) (sepL ++ J).length]
      have hacc : (s.reverse ++ ([] : List Char)).reverse = s := by simp
      rw [hacc]
      have hfi : splitOnAux sepL (sepL ++ J).length ([] : List Char) J
          = splitOnAux sepL (J.length + 1) ([] : List Char) J := by
        apply splitOnAux_fuel_irrel sepL_ne_nil
        · have : 1 ≤ sepL.length := by rw [sepL_length]; omega
          simp only [List.length_append]
          omega
        · omega
      rw [hfi]
      have hIH := ih (by simp) ?hinit ?hlast
      case hinit =>
        intro x hx
        apply hinit
        rw [List.dropLast_cons_of_ne_nil (by simp)]
        exact List.mem_cons_of_mem s hx
      case hlast =>
        have : (s :: r :: rest').getLast hne = (r :: rest').getLast (by simp) :=
          List.getLast_cons (by simp)
        rw [← this]
        exact hlast
      rw [pySplitSep] at hIH
      rw [hIH]

/-! ## The numbered-heading pattern (`helpers.py` `heading_re`)

Model of the Python regular expression

  `(?im)^(?:\s*\**\s*(?:paraphrased(?:\s+version)?|paraphrase|version)?\s*)?(\d{1,2})\s*[:\)\-\.]\s*`

with `re.MULTILINE` and `re.IGNORECASE`, ASCII fragment.  Greedy pieces whose
character classes are disjoint from what follows them (`\s*` before a digit,
`\**` before non-stars, ...) match deterministically; the only genuine
backtracking is the ordered choice between the label alternatives, between
two digits and one digit, and between taking and skipping the optional
group.  `tryHeading` returns the number of characters a match starting at
the current position consumes, or `none`. -/

/-- Length of the longest prefix satisfying `p` (a greedy `X*`). -/
def skipRun (p : Char → Bool) (cs : List Char) : Nat :=
  (cs.takeWhile p).length

/-- Case-insensitive literal match (the literal is given lowercase). -/
def lwCI : List Char → List Char → Bool
  | [], _ => true
  | _ :: _, [] => false
  | p :: ps, c :: cs => p = c.toLower && lwCI ps cs

/-- `matchCI lit cs` returns `lit.length` when `cs` starts with `lit`
case-insensitively. -/
def matchCI (lit cs : List Char) : Option Nat :=
  if lwCI lit cs then some lit.length else none

/-- `(\d{1,2})\s*[:\)\-\.]\s*` continued: after the digits, skip `\s*`, one
punctuation character, then trailing `\s*`.  Returns the end offset. -/
def punctRest (cs : List Char) (k : Nat) : Option Nat :=
  let s1 := skipRun isSpaceB (cs.drop k)
  match (cs.drop (k + s1)).head? with
  | some c =>
    if c = ':' || c = ')' || c = '-' || c = '.' then
      some (k + s1 + 1 + skipRun isSpaceB (cs.drop (k + s1 + 1)))
    else none
  | none => none

/-- `(\d{1,2})` then `punctRest`: two digits are preferred, backtracking to
one digit when the rest of the pattern fails. -/
def digitRest (cs : List Char) (k : Nat) : Option Nat :=
  match (cs.drop k).head? with
  | some d1 =>
    if isDigitB d1 then
      (match (cs.drop (k + 1)).head? with
       | some d2 => if isDigitB d2 then punctRest cs (k + 2) else none
       | none => none) <|> punctRest cs (k + 1)
    else none
  | none => none

/-- The group's trailing `\s*` followed by the digit part. -/
def afterLabel (cs : List Char) (k : Nat) : Option Nat :=
  digitRest cs (k + skipRun isSpaceB (cs.drop k))

/-- `(?:paraphrased(?:\s+version)?|paraphrase|version)?` followed by the rest
of the pattern, alternatives tried in the regular expression's order. -/
def labelPath (cs : List Char) (k : Nat) : Option Nat :=
  (match matchCI "paraphrased".data (cs.drop k) with
   | some l =>
     (let sp := skipRun isSpaceB (cs.drop (k + l))
      if 1 ≤ sp then
        match matchCI "version".data (cs.drop (k + l + sp)) with
        | some lv => afterLabel cs (k + l + sp + lv)
        | none => none
      else none) <|> afterLabel cs (k + l)
   | none => none)
  <|> (match matchCI "paraphrase".data (cs.drop k) with
       | some l => afterLabel cs (k + l)
       | none => none)
  <|> (match matchCI "version".data (cs.drop k) with
       | some l => afterLabel cs (k + l)
       | none => none)
  <|> afterLabel cs k

/-- The optional group `\s*\**\s*(?:...)?\s*` followed by the digit part. -/
def groupPath (cs : List Char) : Option Nat :=
  let i1 := skipRun isSpaceB cs
  let i2 := i1 + skipRun (fun c => decide (c = '*')) (cs.drop i1)
  let i3 := i2 + skipRun isSpaceB (cs.drop i2)
  labelPath cs i3

/-- Attempt a heading match at the current position.  `lineStart` says
whether `^` holds here (`re.MULTILINE`: start of string or after a
newline). -/
def tryHeading (lineStart : Bool) (cs : List Char) : Option Nat :=
  if lineStart then groupPath cs <|> digitRest cs 0 else none

/-- The scan of `re.finditer`: try each position left to right, continuing
after the end of every (non-empty) match.  Returns `(start, end)` pairs.
Every step advances the position, so `cs.length + 1` fuel is enough. -/
def headingGo (cs : List Char) : Nat → Nat → Bool → List (Nat × Nat)
  | 0, _, _ => []
  | fuel + 1, p, ls =>
    if cs.length ≤ p then []
    else
      match tryHeading ls (cs.drop p) with
      | some n =>
        (p, p + n) :: headingGo cs fuel (p + n) ((cs.drop (p + n - 1)).head? == some '\n')
      | none => headingGo cs fuel (p + 1) ((cs.drop p).head? == some '\n')

/-- `list(heading_re.finditer(txt))` from `split_paraphrases`. -/
def headingMatches (cs : List Char) : List (Nat × Nat) :=
  headingGo cs (cs.length + 1) 0 true

/-- The slices `txt[m.end() : next.start()]` (last slice runs to the end of
the text) from `split_paraphrases`. -/
def headingSlices (cs : List Char) : List (Nat × Nat) → List (List Char)
  | [] => []
  | (_, e) :: rest =>
    let stop := match rest with
      | (s2, _) :: _ => s2
      | [] => cs.length
    (cs.take stop).drop e :: headingSlices cs rest

/-- `re.sub(r"^\s*\**\s*", "", part)`: the anchored pattern matches only at
the start, removing leading whitespace, stars, whitespace. -/
def dropLeadWSStars (l : List Char) : List Char :=
  ((l.dropWhile isSpaceB).dropWhile (fun c => decide (c = '*'))).dropWhile isSpaceB

/-! ## Blank-line splitting (`re.split(r"\n{2,}", txt)`) -/

/-- Split at each maximal run of two or more newlines.  Every step consumes
at least one character, so `cs.length + 1` fuel is enough. -/
def splitNNGo : Nat → List Char → List Char → List (List Char)
  | 0, acc, _ => [acc.reverse]
  | fuel + 1, acc, cs =>
    match cs with
    | [] => [acc.reverse]
    | c :: rest =>
      if c = '\n' ∧ rest.head? = some '\n' then
        acc.reverse :: splitNNGo fuel [] (rest.dropWhile (fun x => decide (x = '\n')))
      else
        splitNNGo fuel (c :: acc) rest

/-- `re.split(r"\n{2,}", txt)`. -/
def splitNN (cs : List Char) : List (List Char) :=
  splitNNGo (cs.length + 1) [] cs

/-! ## `helpers.split_paraphrases` and `helpers.fallback_paraphrase` -/

/-- `helpers.fallback_paraphrase(prompt, idx)`; the `prompt` argument is
accepted and ignored, as in the source. -/
def fallback_paraphrase (_prompt : String) (idx : Nat) : String :=
  s!"(Fallback paraphrase {idx}) This is a simple rewrite due to API error."

/-- Strategy 2 of `split_paraphrases` (numbered headings).  `none` models
falling through to the next strategy: the Python code falls through when
there is no heading match, or when every slice is blank. -/
def headingStep (cs : List Char) (expected : Nat) : Option (List (List Char)) :=
  let ms := headingMatches cs
  if ms = [] then none
  else
    let slices := ((headingSlices cs ms).map
      (fun part => pyStripL (dropLeadWSStars (pyStripL part)))).filter (fun p => p ≠ [])
    if expected ≤ slices.length then some ((slices.take expected).map pyStripL)
    else if slices ≠ [] then some slices
    else none

/-- Strategy 3 of `split_paraphrases` (blank-line blocks); `none` models
falling through to approximate chunking. -/
def blankStep (cs : List Char) (expected : Nat) : Option (List (List Char)) :=
  let parts := ((splitNN cs).map pyStripL).filter (fun p => p ≠ [])
  if expected ≤ parts.length then some (parts.take expected)
  else if parts ≠ [] then some parts
  else none

/-- Strategy 4 of `split_paraphrases` (approximate chunking by words).
Note `per = max(1, len(words) // expected)`; Lean's `Nat` division by zero
yields 0 where Python would raise, but every caller passes `expected ≥ 1`. -/
def approxChunks (cs : List Char) (expected : Nat) : List String :=
  let words := wsSplit cs
  let per := max 1 (words.length / expected)
  (List.range expected).map (fun i =>
    let chunk := (words.drop (i * per)).take per
    let joined := pyStripL (List.intercalate [' '] chunk)
    if joined = [] then s!"(paraphrase {i + 1})" else String.mk joined)

/-- `helpers.split_paraphrases(text, expected)`. -/
def split_paraphrases (text : String) (expected : Nat) : List String :=
  if text = "" then (List.range expected).map (fun i => fallback_paraphrase text (i + 1))
  else
    let cs := (pyStrip text).data
    if containsSub sepL cs then
      let parts := ((pySplitSep sepL cs).map pyStripL).filter (fun p => p ≠ [])
      if expected ≤ parts.length then (parts.take expected).map String.mk
      else parts.map String.mk
    else
      match headingStep cs expected with
      | some r => r.map String.mk
      | none =>
        match blankStep cs expected with
        | some r => r.map String.mk
        | none => approxChunks cs expected

/-! ## `gemini_utils.GeminiManager` -/

/-- The instruction prompt built by `generate_paraphrases`. -/
def buildPrompt (text : String) (count : Nat) : String :=
  "Paraphrase the following post carefully.\n" ++
  "Your job is to rewrite the text using different wording while keeping the same meaning.\n" ++
  "\n" ++
  "Rules:\n" ++
  "- Keep the original language." ++
  "- Do NOT translate anything.\n" ++
  "- Maintain emojis, formatting, line breaks, bullet points, and spacing.\n" ++
  "- Keep numbers, symbols, and special characters unchanged.\n" ++
  "- The paraphrased result should sound natural and have about the same length as the original.\n" ++
  "- Do not remove links, usernames, or emojis.\n" ++
  s!"\nPost:\n{text}\n\n" ++
  s!"Provide {count} distinct paraphrased versions. Separate each version using the exact token: {SEP}\n" ++
  "Do not add extra numbering or commentary outside the paraphrased text blocks."

/-- `[helpers.fallback_paraphrase(prompt, idx + 1) for idx in range(lo, count)]`. -/
def supplementFrom (prompt : String) (lo count : Nat) : List String :=
  (List.range (count - lo)).map (fun i => fallback_paraphrase prompt (lo + i + 1))

/-- The body of a successful `_call_gemini` attempt: split the response text
on the separator if present, otherwise run `split_paraphrases`, padding a
shortfall with fallback strings. -/
def processResponse (prompt text_out : String) (count : Nat) : List String :=
  if containsSub sepL text_out.data then
    let parts := (((pySplitSep sepL text_out.data).map pyStripL).filter
      (fun p => p ≠ [])).map String.mk
    if count ≤ parts.length then parts.take count
    else parts ++ supplementFrom prompt parts.length count
  else
    let ps := split_paraphrases text_out count
    if count ≤ ps.length then ps.take count
    else ps ++ supplementFrom prompt ps.length count

/-- `GeminiManager._call_gemini` with `max_retries = 2`: up to three
attempts.  The provider is modelled as a function from the attempt number
to an exception (`Except.error`) or the extracted response text
(`Except.ok`; `getattr(response, "text", None) or str(response)` in the
source).  Key rotation between failed attempts only changes which
credential the provider sees, which the model absorbs into the attempt
index.  After the final failed attempt the source returns `count`
deterministic fallback strings. -/
def callGemini (provider : Nat → Except Unit String) (prompt : String) (count : Nat) :
    List String :=
  match provider 0 with
  | .ok t => processResponse prompt t count
  | .error _ =>
    match provider 1 with
    | .ok t => processResponse prompt t count
    | .error _ =>
      match provider 2 with
      | .ok t => processResponse prompt t count
      | .error _ => (List.range count).map (fun i => fallback_paraphrase prompt (i + 1))

/-- `GeminiManager.generate_paraphrases(text, count)`.  `hasKey` models
`self.api_key` being set; without a key the source returns fallback strings
built from `text`. -/
def generate_paraphrases (hasKey : Bool) (provider : Nat → Except Unit String)
    (text : String) (count : Nat) : List String :=
  if hasKey = false then (List.range count).map (fun i => fallback_paraphrase text (i + 1))
  else callGemini provider (buildPrompt text count) count

/-! ## `firebase_utils`: accounts, referrals, and the quota ledger -/

/-- A user document (`users` collection).  Fields read through
`.get(key, default)` in the source; a document written with only some
fields behaves exactly like one holding the defaults for the rest, so a
plain record is a faithful model. -/
structure Account where
  verified : Bool
  paraphrase_total : Nat
  paraphrase_today : Nat
  last_paraphrase_date : Option String
  invite_code : Option String
  inviter_id : Option String
  invites : Nat
deriving DecidableEq

/-- The document `create_or_get_user` writes for a new user (counters zero,
unverified, no invite code). -/
def freshAccount : Account :=
  { verified := false
    paraphrase_total := 0
    paraphrase_today := 0
    last_paraphrase_date := none
    invite_code := none
    inviter_id := none
    invites := 0 }

/-- One referral document (`referrals` collection). -/
structure Referral where
  inviter_id : String
  new_user_id : String
  acknowledged : Bool
deriving DecidableEq

/-- The users collection, keyed by user id. -/
abbrev UserStore := List (String × Account)

/-- The modelled Firestore state. -/
structure DB where
  users : UserStore
  referrals : List Referral
deriving DecidableEq

/-- Fetch a user document by id. -/
def getAccount? : UserStore → String → Option Account
  | [], _ => none
  | (k, a) :: rest, uid => if k = uid then some a else getAccount? rest uid

/-- Write a user document by id (replace or insert). -/
def setAccount : UserStore → String → Account → UserStore
  | [], uid, acc => [(uid, acc)]
  | (k, a) :: rest, uid, acc =>
    if k = uid then (uid, acc) :: rest else (k, a) :: setAccount rest uid acc

/-- `create_or_get_user`: ensure a user document exists. -/
def create_or_get_user (db : DB) (uid : String) : DB :=
  match getAccount? db.users uid with
  | some _ => db
  | none => { db with users := setAccount db.users uid freshAccount }

/-- `DAILY_LIMIT = 20` (`firebase_utils.py`). -/
def DAILY_LIMIT : Nat := 20

/-- The transactional body `update_counts` of
`firebase_utils.increment_paraphrases`: reset `paraphrase_today` on a date
change, add `count` to both counters otherwise; always bump the total and
stamp today's date.  A missing document is created with both counters at
`count`. -/
def update_counts (acc? : Option Account) (count : Nat) (today : String) : Account :=
  match acc? with
  | some data =>
    { data with
      paraphrase_total := data.paraphrase_total + count
      paraphrase_today :=
        if data.last_paraphrase_date ≠ some today then count
        else data.paraphrase_today + count
      last_paraphrase_date := some today }
  | none =>
    { freshAccount with
      paraphrase_total := count
      paraphrase_today := count
      last_paraphrase_date := some today }

/-- `increment_paraphrases(user_id, count)` (the per-user transaction; the
`paraphrase_events` reporting batch carries no account state and is not
modelled). -/
def increment_paraphrases (db : DB) (uid : String) (count : Nat) (today : String) : DB :=
  { db with users := setAccount db.users uid (update_counts (getAccount? db.users uid) count today) }

/-- First user whose `invite_code` equals `code`
(`.where("invite_code", "==", invite_code)`, stream order). -/
def findInviter : UserStore → String → Option String
  | [], _ => none
  | (k, a) :: rest, code =>
    if a.invite_code = some code then some k else findInviter rest code

/-- `apply_referral(new_user_id, invite_code)`: no credit when the new user
already exists or no inviter holds the code; otherwise create the new user,
credit the inviter (+20 total, +1 invites) and log an unacknowledged
referral. -/
def apply_referral (db : DB) (new_user_id code : String) : (Bool × Option String) × DB :=
  match getAccount? db.users new_user_id with
  | some _ => ((false, none), db)
  | none =>
    match findInviter db.users code with
    | none => ((false, none), db)
    | some inviter_id =>
      let db1 := create_or_get_user db new_user_id
      let db2 :=
        match getAccount? db1.users inviter_id with
        | some a =>
          { db1 with users := (setAccount db1.users inviter_id
              { a with paraphrase_total := a.paraphrase_total + 20,
                       invites := a.invites + 1 }) }
        | none => db1
      ((true, some inviter_id),
        { db2 with referrals := db2.referrals ++ [⟨inviter_id, new_user_id, false⟩] })

/-- `_fetch_unacknowledged_referrals(inviter_id)`. -/
def unacknowledgedFor (refs : List Referral) (uid : String) : List Referral :=
  refs.filter (fun r => decide (r.inviter_id = uid) && !r.acknowledged)

/-- The acknowledgment batch: mark this inviter's unacknowledged referrals
acknowledged. -/
def ackAll (refs : List Referral) (uid : String) : List Referral :=
  refs.map (fun r =>
    if r.inviter_id = uid ∧ r.acknowledged = false then { r with acknowledged := true } else r)

/-- The transactional body `apply_credit` of
`acknowledge_referrals_and_apply_credits`: a stale `last_paraphrase_date`
makes `paraphrase_today` count as 0, then the counter is reduced by the
earned credits, floored at 0 (`max(0, ...)` in the source; for `Nat` the
truncated subtraction is that floor).  The date stamp and total are left
unchanged (`firestore.Increment(0)`).  A missing document is created with
zero counters. -/
def reduceToday (acc? : Option Account) (earned : Nat) (today : String) : Account :=
  match acc? with
  | some data =>
    let t0 := if data.last_paraphrase_date ≠ some today then 0 else data.paraphrase_today
    { data with paraphrase_today := t0 - earned }
  | none =>
    { freshAccount with last_paraphrase_date := some today }

/-- `acknowledge_referrals_and_apply_credits(inviter_id)`: returns the
number of newly acknowledged referrals; returns 0 and writes nothing when
there are none. -/
def acknowledge_referrals_and_apply_credits (db : DB) (uid : String) (today : String) :
    Nat × DB :=
  let unack := unacknowledgedFor db.referrals uid
  if unack = [] then (0, db)
  else
    let count := unack.length
    let db1 := { db with referrals := ackAll db.referrals uid }
    let earned := count * 20
    (count,
      { db1 with users := (setAccount db1.users uid
          (reduceToday (getAccount? db1.users uid) earned today)) })

/-! ## `paraphrase_handler.handle_paraphrase_request` -/

/-- The observable outcome of a paraphrase request (which reply the user
receives). -/
inductive HandlerOutcome where
  | noText
  | invalidCount
  | needsVerification
  | dailyLimitExceeded
  | generated (ps : List String)
deriving DecidableEq

/-- `handle_paraphrase_request(bot, user_id, text, count, reply_message)`:
empty text and counts outside {1, 2, 4} are rejected; an unverified user
with `paraphrase_total >= 20` gets the verification prompt (the literal 20
in the source, despite the docstring's "first 10 paraphrases free"); then
the daily limit check; otherwise generation runs and the counters are
committed.  The verification-message tracking record lives outside the
`users`/`referrals` collections and is not modelled. -/
def handle_paraphrase_request (hasKey : Bool) (provider : Nat → Except Unit String)
    (db : DB) (uid text : String) (count : Nat) (today : String) :
    HandlerOutcome × DB :=
  if text = "" then (.noText, db)
  else if ¬ (count = 1 ∨ count = 2 ∨ count = 4) then (.invalidCount, db)
  else
    let user := (getAccount? db.users uid).getD freshAccount
    if user.verified = false ∧ 20 ≤ user.paraphrase_total then (.needsVerification, db)
    else if DAILY_LIMIT < user.paraphrase_today + count then (.dailyLimitExceeded, db)
    else
      (.generated (generate_paraphrases hasKey provider text count),
        increment_paraphrases db uid count today)

/-! ## Store lemmas -/

theorem getAccount?_setAccount_same (users : UserStore) (uid : String) (a : Account) :
    getAccount? (setAccount users uid a) uid = some a := by
  induction users with
  | nil => simp [setAccount, getAccount?]
  | cons p rest ih =>
    obtain ⟨k, b⟩ := p
    by_cases h : k = uid
    · simp [setAccount, getAccount?, h]
    · simp [setAccount, getAccount?, h, ih]

theorem getAccount?_setAccount_ne (users : UserStore) {uid uid' : String} (a : Account)
    (h : uid' ≠ uid) :
    getAccount? (setAccount users uid a) uid' = getAccount? users uid' := by
  have h' : uid ≠ uid' := Ne.symm h
  induction users with
  | nil => simp [setAccount, getAccount?, h']
  | cons p rest ih =>
    obtain ⟨k, b⟩ := p
    by_cases hk : k = uid
    · subst hk
      simp [setAccount, getAccount?, h']
    · simp [setAccount, getAccount?, hk, ih]

/-! ## Claim C3: the generation client always returns `count` strings -/

theorem supplementFrom_length (prompt : String) (lo count : Nat) :
    (supplementFrom prompt lo count).length = count - lo := by
  simp [supplementFrom]

theorem processResponse_length (prompt t : String) (count : Nat) :
    (processResponse prompt t count).length = count := by
  simp only [processResponse]
  split_ifs with h1 h2 h3
  · simp only [List.length_take]
    omega
  · simp only [List.length_append, supplementFrom_length]
    omega
  · simp only [List.length_take]
    omega
  · simp only [List.length_append, supplementFrom_length]
    omega

/-- C3: for every provider behaviour — a response with more, exactly, or
fewer separator-delimited parts than `count`, an unparseable response, or an
exception on every one of the three attempts — `generate_paraphrases`
returns exactly `count` strings (it is a total function, so it never raises
to the caller), and when every attempt fails all `count` results are the
deterministic fallback strings. -/
theorem C3_generate_always_count (hasKey : Bool) (provider : Nat → Except Unit String)
    (text : String) (count : Nat) :
    (generate_paraphrases hasKey provider text count).length = count ∧
    (hasKey = true → provider 0 = .error () → provider 1 = .error () →
      provider 2 = .error () →
      generate_paraphrases hasKey provider text count
        = (List.range count).map (fun i => fallback_paraphrase (buildPrompt text count) (i + 1))) := by
  constructor
  · unfold generate_paraphrases
    by_cases h : hasKey = false
    · simp [h]
    · simp only [h, if_false, Bool.false_eq_true]
      unfold callGemini
      cases hp0 : provider 0 with
      | ok t => exact processResponse_length _ _ _
      | error e =>
        cases hp1 : provider 1 with
        | ok t => exact processResponse_length _ _ _
        | error e =>
          cases hp2 : provider 2 with
          | ok t => exact processResponse_length _ _ _
          | error e => simp
  · intro hk h0 h1 h2
    unfold generate_paraphrases callGemini
    rw [hk, h0, h1, h2]
    simp

/-- Every-attempt-fails provider used by several concrete instances. -/
def provFail : Nat → Except Unit String := fun _ => Except.error ()

theorem C3_generate_always_count_witness :
    ((true : Bool) = true ∧ provFail 0 = .error () ∧ provFail 1 = .error () ∧
      provFail 2 = .error ()) ∧
    (generate_paraphrases true provFail "hi" 2).length = 2 ∧
    generate_paraphrases true provFail "hi" 2
      = (List.range 2).map (fun i => fallback_paraphrase (buildPrompt "hi" 2) (i + 1)) :=
  ⟨⟨rfl, rfl, rfl, rfl⟩,
    (C3_generate_always_count true provFail "hi" 2).1,
    (C3_generate_always_count true provFail "hi" 2).2 rfl rfl rfl rfl⟩

/-! ## Claim C4: `commitUsage` semantics and same-day accumulation -/

/-- Iterated commits: `update_counts` applied once per element of `counts`,
all on the same day `d`. -/
def commitMany (acc : Account) (counts : List Nat) (d : String) : Account :=
  counts.foldl (fun a c => update_counts (some a) c d) acc

theorem update_counts_same_day {a : Account} {d : String} (c : Nat)
    (ha : a.last_paraphrase_date = some d) :
    update_counts (some a) c d
      = { a with paraphrase_total := a.paraphrase_total + c,
                 paraphrase_today := a.paraphrase_today + c,
                 last_paraphrase_date := some d } := by
  simp [update_counts, ha]

theorem commitMany_same_day (d : String) :
    ∀ (counts : List Nat) (a : Account), a.last_paraphrase_date = some d →
      (commitMany a counts d).paraphrase_today = a.paraphrase_today + counts.sum ∧
      (commitMany a counts d).paraphrase_total = a.paraphrase_total + counts.sum ∧
      (commitMany a counts d).last_paraphrase_date = some d := by
  intro counts
  induction counts with
  | nil =>
    intro a ha
    simp [commitMany, ha]
  | cons c cs ih =>
    intro a ha
    have hstep := update_counts_same_day c ha
    have hrec := ih (update_counts (some a) c d) (by rw [hstep])
    have hfold : commitMany a (c :: cs) d = commitMany (update_counts (some a) c d) cs d := by
      simp [commitMany]
    rw [hfold]
    refine ⟨?_, ?_, hrec.2.2⟩
    · rw [hrec.1, hstep]
      simp [List.sum_cons]
      omega
    · rw [hrec.2.1, hstep]
      simp [List.sum_cons]
      omega

/-- C4: for an existing account, `commitUsage(userId, count)`
(`increment_paraphrases`'s transactional body `update_counts`) resets
`paraphrase_today` to `count` on a date change and adds `count` otherwise,
unconditionally adds `count` to `paraphrase_total`, and stamps today's
date; consequently N same-day calls accumulate the sum of the counts into
`paraphrase_today`. -/
theorem C4_commit_usage (acc : Account) (c : Nat) (d : String) :
    (update_counts (some acc) c d).paraphrase_total = acc.paraphrase_total + c ∧
    (update_counts (some acc) c d).last_paraphrase_date = some d ∧
    (acc.last_paraphrase_date ≠ some d →
      (update_counts (some acc) c d).paraphrase_today = c) ∧
    (acc.last_paraphrase_date = some d →
      (update_counts (some acc) c d).paraphrase_today = acc.paraphrase_today + c) ∧
    (∀ counts : List Nat, acc.last_paraphrase_date ≠ some d →
      (commitMany acc (c :: counts) d).paraphrase_today = (c :: counts).sum) ∧
    (∀ db uid, getAccount? db.users uid = some acc →
      getAccount? (increment_paraphrases db uid c d).users uid
        = some (update_counts (some acc) c d)) := by
  refine ⟨by simp [update_counts], by simp [update_counts], ?_, ?_, ?_, ?_⟩
  · intro h
    simp [update_counts, h]
  · intro h
    simp [update_counts, h]
  · intro counts h
    have hstep : update_counts (some acc) c d
        = { acc with paraphrase_total := acc.paraphrase_total + c,
                     paraphrase_today := c,
                     last_paraphrase_date := some d } := by
      simp [update_counts, h]
    have hfold : commitMany acc (c :: counts) d
        = commitMany (update_counts (some acc) c d) counts d := by
      simp [commitMany]
    rw [hfold, hstep]
    have := (commitMany_same_day d counts
      { acc with paraphrase_total := acc.paraphrase_total + c,
                 paraphrase_today := c,
                 last_paraphrase_date := some d } (by simp)).1
    rw [this]
    simp [List.sum_cons]
  · intro db uid ha
    simp [increment_paraphrases, ha, getAccount?_setAccount_same]

/-- Yesterday's account with 15 paraphrases used, for the rollover instance. -/
def accYesterday : Account :=
  { freshAccount with
      paraphrase_total := 15
      paraphrase_today := 15
      last_paraphrase_date := some "2025-01-01" }

/-- The date-rollover instance from the spec: `paraphraseToday = 15` carried
over from yesterday, one commit of 3 yields 3, not 18. -/
theorem C4_commit_usage_witness :
    accYesterday.last_paraphrase_date ≠ some "2025-01-02" ∧
    (update_counts (some accYesterday) 3 "2025-01-02").paraphrase_today = 3 :=
  ⟨by decide, (C4_commit_usage accYesterday 3 "2025-01-02").2.2.1 (by decide)⟩

/-! ## Claim C10: `commitUsage` without a prior `getOrCreate` -/

/-- C10: `increment_paraphrases` on a user id with no stored account creates
the account inside the transaction with both counters equal to `count` and
today's date stamped. -/
theorem C10_commit_creates_account (db : DB) (uid : String) (c : Nat) (d : String)
    (h : getAccount? db.users uid = none) :
    getAccount? (increment_paraphrases db uid c d).users uid
      = some { freshAccount with
                 paraphrase_total := c
                 paraphrase_today := c
                 last_paraphrase_date := some d } := by
  simp [increment_paraphrases, h, update_counts, getAccount?_setAccount_same]

theorem C10_commit_creates_account_witness :
    getAccount? (DB.users ⟨[], []⟩) "u" = none ∧
    getAccount? (increment_paraphrases ⟨[], []⟩ "u" 4 "2025-01-02").users "u"
      = some { freshAccount with
                 paraphrase_total := 4
                 paraphrase_today := 4
                 last_paraphrase_date := some "2025-01-02" } :=
  ⟨rfl, C10_commit_creates_account ⟨[], []⟩ "u" 4 "2025-01-02" rfl⟩

/-! ## Claim C5: acknowledge-and-credit -/

theorem ackAll_of_no_unack {refs : List Referral} {uid : String}
    (h : unacknowledgedFor refs uid = []) : ackAll refs uid = refs := by
  induction refs with
  | nil => rfl
  | cons r rest ih =>
    simp only [unacknowledgedFor, List.filter_cons] at h
    by_cases hp : (decide (r.inviter_id = uid) && !r.acknowledged) = true
    · rw [if_pos hp] at h
      cases h
    · rw [if_neg hp] at h
      have hrest := ih (by simpa [unacknowledgedFor] using h)
      simp only [Bool.and_eq_true, decide_eq_true_eq, Bool.not_eq_true', not_and] at hp
      simp only [ackAll, List.map_cons]
      rw [ackAll] at hrest
      rw [hrest]
      congr 1
      by_cases hi : r.inviter_id = uid
      · rw [if_neg]
        rintro ⟨_, hack⟩
        exact absurd (hp hi) (by rw [hack]; simp)
      · rw [if_neg]
        rintro ⟨h1, _⟩
        exact hi h1

theorem unack_ackAll_eq_nil (refs : List Referral) (uid : String) :
    unacknowledgedFor (ackAll refs uid) uid = [] := by
  induction refs with
  | nil => rfl
  | cons r rest ih =>
    simp only [ackAll, List.map_cons, unacknowledgedFor, List.filter_cons] at ih ⊢
    by_cases hc : r.inviter_id = uid ∧ r.acknowledged = false
    · rw [if_pos hc]
      simpa using ih
    · rw [if_neg hc]
      have : (decide (r.inviter_id = uid) && !r.acknowledged) = false := by
        by_cases hi : r.inviter_id = uid
        · have : r.acknowledged = true := by
            by_cases ha : r.acknowledged = true
            · exact ha
            · exact absurd ⟨hi, by simpa using ha⟩ hc
          simp [this]
        · simp [hi]
      rw [this]
      simpa using ih

/-- C5: `acknowledgeAndCredit(inviterId)` returns the number `k` of the
inviter's unacknowledged referral records, marks exactly those records
acknowledged, and reduces the inviter's `paraphrase_today` (counted as 0
when `last_paraphrase_date` is stale) by `20 * k`, floored at zero (`Nat`
truncated subtraction); with `k = 0` it returns 0 and changes nothing, so
an immediate second call returns 0 and changes nothing. -/
theorem C5_acknowledge_and_credit (db : DB) (uid d : String) (acc : Account)
    (hacc : getAccount? db.users uid = some acc) :
    (acknowledge_referrals_and_apply_credits db uid d).1
      = (unacknowledgedFor db.referrals uid).length ∧
    (acknowledge_referrals_and_apply_credits db uid d).2.referrals
      = ackAll db.referrals uid ∧
    (unacknowledgedFor db.referrals uid ≠ [] →
      getAccount? (acknowledge_referrals_and_apply_credits db uid d).2.users uid
        = some { acc with paraphrase_today :=
            (if acc.last_paraphrase_date ≠ some d then 0 else acc.paraphrase_today)
              - 20 * (unacknowledgedFor db.referrals uid).length }) ∧
    (unacknowledgedFor db.referrals uid = [] →
      acknowledge_referrals_and_apply_credits db uid d = (0, db)) ∧
    acknowledge_referrals_and_apply_credits
        (acknowledge_referrals_and_apply_credits db uid d).2 uid d
      = (0, (acknowledge_referrals_and_apply_credits db uid d).2) := by
  by_cases h0 : unacknowledgedFor db.referrals uid = []
  · have hres : acknowledge_referrals_and_apply_credits db uid d = (0, db) := by
      simp [acknowledge_referrals_and_apply_credits, h0]
    refine ⟨by rw [hres, h0]; rfl, ?_, ?_, fun _ => hres, ?_⟩
    · rw [hres, ackAll_of_no_unack h0]
    · intro hne
      exact absurd h0 hne
    · rw [hres]
      simp [acknowledge_referrals_and_apply_credits, h0]
  · have hres : acknowledge_referrals_and_apply_credits db uid d
        = ((unacknowledgedFor db.referrals uid).length,
           { users := (setAccount db.users uid
               (reduceToday (getAccount? db.users uid)
                 ((unacknowledgedFor db.referrals uid).length * 20) d))
             referrals := ackAll db.referrals uid }) := by
      simp [acknowledge_referrals_and_apply_credits, h0]
    refine ⟨by rw [hres], by rw [hres], ?_, fun h => absurd h h0, ?_⟩
    · intro _
      rw [hres]
      simp only
      rw [getAccount?_setAccount_same, hacc]
      simp only [reduceToday]
      congr 2
      rw [Nat.mul_comm]
    · rw [hres]
      simp only
      have h2 : unacknowledgedFor (ackAll db.referrals uid) uid = [] :=
        unack_ackAll_eq_nil db.referrals uid
      simp [acknowledge_referrals_and_apply_credits, h2]

/-- Concrete state for the C5 instance: one unacknowledged referral. -/
def dbC5 : DB := ⟨[("u", freshAccount)], [⟨"u", "v", false⟩]⟩

theorem C5_acknowledge_and_credit_witness :
    getAccount? dbC5.users "u" = some freshAccount ∧
    (acknowledge_referrals_and_apply_credits dbC5 "u" "2025-01-02").1 = 1 ∧
    acknowledge_referrals_and_apply_credits
        (acknowledge_referrals_and_apply_credits dbC5 "u" "2025-01-02").2 "u" "2025-01-02"
      = (0, (acknowledge_referrals_and_apply_credits dbC5 "u" "2025-01-02").2) := by
  refine ⟨rfl, ?_,
    (C5_acknowledge_and_credit dbC5 "u" "2025-01-02" freshAccount rfl).2.2.2.2⟩
  rw [(C5_acknowledge_and_credit dbC5 "u" "2025-01-02" freshAccount rfl).1]
  rfl

/-! ## Claim C6: referral application fails closed and credits once -/

theorem findInviter_eq_none {users : UserStore} {code : String}
    (h : ∀ p ∈ users, p.2.invite_code ≠ some code) :
    findInviter users code = none := by
  induction users with
  | nil => rfl
  | cons p rest ih =>
    obtain ⟨k, a⟩ := p
    have h1 : a.invite_code ≠ some code := h (k, a) (by simp)
    simp only [findInviter, if_neg h1]
    exact ih (fun q hq => h q (by simp [hq]))

theorem findInviter_account {users : UserStore} {code inv : String}
    (h : findInviter users code = some inv) :
    ∃ a, getAccount? users inv = some a := by
  induction users with
  | nil => cases h
  | cons p rest ih =>
    obtain ⟨k, a⟩ := p
    by_cases hc : a.invite_code = some code
    · rw [findInviter, if_pos hc] at h
      injection h with h
      subst h
      exact ⟨a, by simp [getAccount?]⟩
    · rw [findInviter, if_neg hc] at h
      rcases ih h with ⟨b, hb⟩
      by_cases hk : k = inv
      · exact ⟨a, by simp [getAccount?, hk]⟩
      · exact ⟨b, by simp [getAccount?, hk, hb]⟩

/-- C6: `applyReferral(newUserId, code)` returns `credited = false` and
mutates nothing when the new user already has an account or no account
holds the invite code; otherwise it creates the new user's account, adds 20
to the inviter's `paraphrase_total` and 1 to `invites`, writes one
unacknowledged referral record, and returns `credited = true`; a repeated
call with the same `newUserId` then returns `credited = false` and mutates
nothing, so the inviter is credited only once. -/
theorem C6_apply_referral (db : DB) (nu code : String) :
    (getAccount? db.users nu ≠ none → apply_referral db nu code = ((false, none), db)) ∧
    ((∀ p ∈ db.users, p.2.invite_code ≠ some code) →
      apply_referral db nu code = ((false, none), db)) ∧
    (∀ inv, getAccount? db.users nu = none → findInviter db.users code = some inv →
      ∃ a, getAccount? db.users inv = some a ∧
        apply_referral db nu code
          = ((true, some inv),
             { users := (setAccount (setAccount db.users nu freshAccount) inv
                 { a with paraphrase_total := a.paraphrase_total + 20,
                          invites := a.invites + 1 })
               referrals := db.referrals ++ [⟨inv, nu, false⟩] })) ∧
    (∀ res db', apply_referral db nu code = ((true, res), db') →
      apply_referral db' nu code = ((false, none), db')) := by
  refine ⟨?_, ?_, ?_, ?_⟩
  · intro h
    cases hg : getAccount? db.users nu with
    | some a => simp [apply_referral, hg]
    | none => exact absurd hg h
  · intro hall
    cases hg : getAccount? db.users nu with
    | some a => simp [apply_referral, hg]
    | none => simp [apply_referral, hg, findInviter_eq_none hall]
  · intro inv hnu hfind
    rcases findInviter_account hfind with ⟨a, ha⟩
    have hne : inv ≠ nu := by
      intro he
      rw [he, hnu] at ha
      cases ha
    refine ⟨a, ha, ?_⟩
    have hcreate : create_or_get_user db nu
        = { db with users := setAccount db.users nu freshAccount } := by
      simp [create_or_get_user, hnu]
    have hlook : getAccount? (setAccount db.users nu freshAccount) inv = some a := by
      rw [getAccount?_setAccount_ne _ _ hne, ha]
    simp [apply_referral, hnu, hfind, hcreate, hlook]
  · intro res db' heq
    cases hg : getAccount? db.users nu with
    | some a =>
      rw [apply_referral] at heq
      rw [hg] at heq
      cases heq
    | none =>
      cases hfind : findInviter db.users code with
      | none =>
        rw [apply_referral, hg, hfind] at heq
        cases heq
      | some inv =>
        rcases findInviter_account hfind with ⟨a, ha⟩
        have hne : inv ≠ nu := by
          intro he
          rw [he, hg] at ha
          cases ha
        have hcreate : create_or_get_user db nu
            = { db with users := setAccount db.users nu freshAccount } := by
          simp [create_or_get_user, hg]
        have hlook : getAccount? (setAccount db.users nu freshAccount) inv = some a := by
          rw [getAccount?_setAccount_ne _ _ hne, ha]
        rw [apply_referral, hg, hfind] at heq
        rw [hcreate] at heq
        simp only [hlook] at heq
        have hdb' : getAccount? db'.users nu = some freshAccount := by
          have := congrArg (fun x => getAccount? x.2.users nu) heq
          simp only at this
          rw [← this, getAccount?_setAccount_ne _ _ (Ne.symm hne),
            getAccount?_setAccount_same]
        simp [apply_referral, hdb']

/-- Concrete inviter holding an invite code, for the C6 instance. -/
def accInviter : Account := { freshAccount with invite_code := some "CODE" }

/-- Concrete state for the C6 instance. -/
def dbC6 : DB := ⟨[("i", accInviter)], []⟩

theorem C6_apply_referral_witness :
    getAccount? dbC6.users "n" = none ∧
    findInviter dbC6.users "CODE" = some "i" ∧
    apply_referral ((apply_referral dbC6 "n" "CODE").2) "n" "CODE"
      = ((false, none), (apply_referral dbC6 "n" "CODE").2) := by
  refine ⟨rfl, rfl, ?_⟩
  exact (C6_apply_referral dbC6 "n" "CODE").2.2.2 (some "i")
    (apply_referral dbC6 "n" "CODE").2 (by decide)

/-! ## Claim C1: the verification gate -/

/-- The claim's verification-gate account: unverified with
`paraphrase_total = 10`. -/
def accTotal10 : Account := { freshAccount with paraphrase_total := 10 }

/-- Concrete state for the C1 counterexample. -/
def dbC1 : DB := ⟨[("u", accTotal10)], []⟩

/-- C1 counterexample: an unverified account at `paraphraseTotal = 10` (the
spec's claimed threshold) is *not* gated — the request proceeds to
generation.  The source gates at `total_paraphrases >= 20`
(`paraphrase_handler.py`), not at 10. -/
theorem C1_counterexample_threshold10 :
    (handle_paraphrase_request true provFail dbC1 "u" "hi" 1 "2025-01-02").1
      ≠ HandlerOutcome.needsVerification ∧
    (handle_paraphrase_request true provFail dbC1 "u" "hi" 1 "2025-01-02").1
      = HandlerOutcome.generated [fallback_paraphrase (buildPrompt "hi" 1) 1] := by
  constructor
  · decide
  · decide

/-- C1 (amended to the code's threshold 20): for every account with
`verified = false` and `paraphrase_total ≥ 20`, a request with any valid
count yields the verification prompt, with no generation call and no state
change, and this check precedes the daily-limit check (the conclusion holds
for every `paraphrase_today`). -/
theorem C1_verification_gate (hasKey : Bool) (provider : Nat → Except Unit String)
    (db : DB) (uid text : String) (count : Nat) (today : String) (acc : Account)
    (ht : text ≠ "") (hc : count = 1 ∨ count = 2 ∨ count = 4)
    (ha : getAccount? db.users uid = some acc)
    (hv : acc.verified = false) (hth : 20 ≤ acc.paraphrase_total) :
    handle_paraphrase_request hasKey provider db uid text count today
      = (HandlerOutcome.needsVerification, db) := by
  rw [handle_paraphrase_request, if_neg ht, if_neg (not_not_intro hc)]
  simp only [ha, Option.getD_some]
  rw [if_pos ⟨hv, hth⟩]

/-- Unverified account exactly at the code's threshold, with heavy daily
usage (shows precedence over the daily limit). -/
def accTotal20 : Account :=
  { freshAccount with paraphrase_total := 25, paraphrase_today := 20 }

/-- Concrete state for the C1 amended-claim instance. -/
def dbC1b : DB := ⟨[("u", accTotal20)], []⟩

theorem C1_verification_gate_witness :
    (("hi" : String) ≠ "" ∧ ((4 : Nat) = 1 ∨ (4 : Nat) = 2 ∨ (4 : Nat) = 4) ∧
      getAccount? dbC1b.users "u" = some accTotal20 ∧
      accTotal20.verified = false ∧ 20 ≤ accTotal20.paraphrase_total ∧
      DAILY_LIMIT < accTotal20.paraphrase_today + 4) ∧
    handle_paraphrase_request true provFail dbC1b "u" "hi" 4 "2025-01-02"
      = (HandlerOutcome.needsVerification, dbC1b) :=
  ⟨⟨by decide, by decide, rfl, rfl, by decide, by decide⟩,
    C1_verification_gate true provFail dbC1b "u" "hi" 4 "2025-01-02" accTotal20
      (by decide) (by decide) rfl rfl (by decide)⟩

/-! ## Claim C7: the daily limit boundary -/

/-- A verified account with 18 paraphrases used today. -/
def accToday18 : Account :=
  { freshAccount with verified := true, paraphrase_total := 30, paraphrase_today := 18 }

/-- Concrete state for the C7 instance. -/
def dbC7 : DB := ⟨[("u", accToday18)], []⟩

/-- C7 counterexample: with `paraphraseToday = 18`, requesting `count = 3`
is rejected as an invalid count (the handler only accepts 1, 2 or 4) before
the daily-limit check ever runs — not refused as `DailyLimitExceeded` as the
claim states. -/
theorem C7_counterexample_count3 :
    (handle_paraphrase_request true provFail dbC7 "u" "hi" 3 "2025-01-02").1
      = HandlerOutcome.invalidCount ∧
    (handle_paraphrase_request true provFail dbC7 "u" "hi" 3 "2025-01-02").1
      ≠ HandlerOutcome.dailyLimitExceeded := by
  constructor
  · decide
  · decide

/-- C7 (amended to the handler's validated counts): for a verified (or
below-the-code's-verification-threshold) account and any valid count
(1, 2 or 4), the request is refused as `DailyLimitExceeded` exactly when
`paraphraseToday + count > 20`; otherwise generation proceeds.  In
particular 18 + 2 = 20 is allowed and 18 + 4 exceeds. -/
theorem C7_daily_limit (hasKey : Bool) (provider : Nat → Except Unit String)
    (db : DB) (uid text : String) (count : Nat) (today : String) (acc : Account)
    (ht : text ≠ "") (hc : count = 1 ∨ count = 2 ∨ count = 4)
    (ha : getAccount? db.users uid = some acc)
    (hg : acc.verified = true ∨ acc.paraphrase_total < 20) :
    ((handle_paraphrase_request hasKey provider db uid text count today).1
        = HandlerOutcome.dailyLimitExceeded
      ↔ DAILY_LIMIT < acc.paraphrase_today + count) ∧
    (acc.paraphrase_today + count ≤ DAILY_LIMIT →
      (handle_paraphrase_request hasKey provider db uid text count today).1
        = HandlerOutcome.generated (generate_paraphrases hasKey provider text count)) := by
  have hnv : ¬ (acc.verified = false ∧ 20 ≤ acc.paraphrase_total) := by
    rcases hg with h | h
    · rintro ⟨h1, _⟩
      rw [h] at h1
      cases h1
    · rintro ⟨_, h2⟩
      omega
  rw [handle_paraphrase_request, if_neg ht, if_neg (not_not_intro hc)]
  simp only [ha, Option.getD_some]
  rw [if_neg hnv]
  by_cases hd : DAILY_LIMIT < acc.paraphrase_today + count
  · rw [if_pos hd]
    constructor
    · constructor
      · intro _
        exact hd
      · intro _
        rfl
    · intro hle
      omega
  · rw [if_neg hd]
    constructor
    · constructor
      · intro h
        simp at h
      · intro h
        exact absurd h hd
    · intro _
      rfl

theorem C7_daily_limit_witness :
    (("hi" : String) ≠ "" ∧ getAccount? dbC7.users "u" = some accToday18 ∧
      accToday18.verified = true ∧
      accToday18.paraphrase_today + 2 ≤ DAILY_LIMIT ∧
      DAILY_LIMIT < accToday18.paraphrase_today + 4) ∧
    (handle_paraphrase_request true provFail dbC7 "u" "hi" 2 "2025-01-02").1
      = HandlerOutcome.generated (generate_paraphrases true provFail "hi" 2) ∧
    (handle_paraphrase_request true provFail dbC7 "u" "hi" 4 "2025-01-02").1
      = HandlerOutcome.dailyLimitExceeded :=
  ⟨⟨by decide, rfl, rfl, by decide, by decide⟩,
    (C7_daily_limit true provFail dbC7 "u" "hi" 2 "2025-01-02" accToday18
      (by decide) (by tauto) rfl (Or.inl rfl)).2 (by decide),
    (C7_daily_limit true provFail dbC7 "u" "hi" 4 "2025-01-02" accToday18
      (by decide) (by tauto) rfl (Or.inl rfl)).1.mpr (by decide)⟩

/-! ## Claim C9: `paraphraseToday ≤ paraphraseTotal` on reachable accounts -/

/-- The ways an account document comes into existence in the source:
`create_or_get_user` (zero defaults; also the path taken by
`apply_referral` for the referred user), `increment_paraphrases` on a
missing document (both counters `count`), and the credit transaction on a
missing document (zero counters). -/
def InitAccount (a : Account) : Prop :=
  a = freshAccount ∨
  (∃ c d, a = update_counts none c d) ∨
  (∃ e d, a = reduceToday none e d)

/-- Every mutation the source applies to an existing account document:
`increment_paraphrases` (commitUsage), `ensure_invite_code`,
`apply_referral`'s inviter credit (`paraphrase_total + 20`, `invites + 1`),
and `acknowledge_referrals_and_apply_credits`'s reduction
(`reduceTodayUsage`).  No code path writes any other account field. -/
inductive AccStep : Account → Account → Prop
  | commit (c : Nat) (d : String) (a : Account) :
      AccStep a (update_counts (some a) c d)
  | setInviteCode (code : String) (a : Account) :
      AccStep a { a with invite_code := some code }
  | referralCredit (a : Account) :
      AccStep a { a with paraphrase_total := a.paraphrase_total + 20,
                         invites := a.invites + 1 }
  | ackCredit (earned : Nat) (d : String) (a : Account) :
      AccStep a (reduceToday (some a) earned d)

/-- C9: the invariant `paraphraseToday ≤ paraphraseTotal` holds at account
creation and is preserved by every mutating operation, hence holds in every
reachable account state. -/
theorem C9_invariant (a0 a : Account) (h0 : InitAccount a0)
    (hr : Relation.ReflTransGen AccStep a0 a) :
    a.paraphrase_today ≤ a.paraphrase_total := by
  have inv0 : a0.paraphrase_today ≤ a0.paraphrase_total := by
    rcases h0 with h | ⟨c, d, h⟩ | ⟨e, d, h⟩ <;> subst h <;>
      simp [freshAccount, update_counts, reduceToday]
  induction hr with
  | refl => exact inv0
  | tail hsteps hstep ih =>
    rename_i b c
    cases hstep with
    | commit k d =>
      simp only [update_counts]
      split_ifs
      · show k ≤ b.paraphrase_total + k
        omega
      · show b.paraphrase_today + k ≤ b.paraphrase_total + k
        omega
    | setInviteCode code =>
      simpa using ih
    | referralCredit =>
      show b.paraphrase_today ≤ b.paraphrase_total + 20
      omega
    | ackCredit earned d =>
      simp only [reduceToday]
      split_ifs with h
      · show (0 : Nat) - earned ≤ b.paraphrase_total
        omega
      · show b.paraphrase_today - earned ≤ b.paraphrase_total
        have h1 : b.paraphrase_today - earned ≤ b.paraphrase_today := Nat.sub_le _ _
        omega

/-- A freshly created account stepped by one commit satisfies the
invariant. -/
theorem C9_invariant_witness :
    InitAccount freshAccount ∧
    Relation.ReflTransGen AccStep freshAccount
      (update_counts (some freshAccount) 2 "2025-01-02") ∧
    (update_counts (some freshAccount) 2 "2025-01-02").paraphrase_today
      ≤ (update_counts (some freshAccount) 2 "2025-01-02").paraphrase_total :=
  ⟨Or.inl rfl,
    Relation.ReflTransGen.single (AccStep.commit 2 "2025-01-02" freshAccount),
    C9_invariant freshAccount _ (Or.inl rfl)
      (Relation.ReflTransGen.single (AccStep.commit 2 "2025-01-02" freshAccount))⟩

/-! ## Claim C2: plain prose hits the blank-line rule, not the chunker -/

theorem splitNNGo_no_break :
    ∀ fuel {acc cs : List Char}, cs.length < fuel →
      containsSub ['\n', '\n'] cs = false →
      splitNNGo fuel acc cs = [acc.reverse ++ cs] := by
  intro fuel
  induction fuel with
  | zero =>
    intro acc cs h _
    omega
  | succ f ih =>
    intro acc cs hlen hno
    cases cs with
    | nil => simp [splitNNGo]
    | cons c rest =>
      have hcond : ¬ (c = '\n' ∧ rest.head? = some '\n') := by
        rintro ⟨h1, h2⟩
        subst h1
        cases rest with
        | nil => cases h2
        | cons r rs =>
          simp only [List.head?_cons, Option.some.injEq] at h2
          subst h2
          simp [containsSub, leadsWith] at hno
      have hno' : containsSub ['\n', '\n'] rest = false := by
        simp only [containsSub, Bool.or_eq_false_iff] at hno
        exact hno.2
      have hlen' : rest.length < f := by
        simp only [List.length_cons] at hlen
        omega
      rw [splitNNGo]
      simp only [if_neg hcond]
      rw [ih hlen' hno']
      simp

theorem headingStep_eq_none {cs : List Char} (h : headingMatches cs = [])
    (expected : Nat) : headingStep cs expected = none := by
  simp [headingStep, h]

theorem blankStep_no_break {cs : List Char} (hcs : cs ≠ []) (hstrip : pyStripL cs = cs)
    (hnn : containsSub ['\n', '\n'] cs = false) {expected : Nat} (hexp : 1 ≤ expected) :
    blankStep cs expected = some [cs] := by
  have hsplit : splitNN cs = [cs] := by
    have := @splitNNGo_no_break (cs.length + 1) [] cs (by omega) hnn
    simpa [splitNN] using this
  have hparts : ((splitNN cs).map pyStripL).filter (fun p => p ≠ []) = [cs] := by
    rw [hsplit]
    simp [hstrip, hcs]
  rw [blankStep]
  rw [hparts]
  by_cases he : expected ≤ 1
  · have : expected = 1 := by omega
    subst this
    simp
  · rw [if_neg (by simpa using he)]
    simp

/-- C2 counterexample: plain prose with no sentinel, headings, or blank
lines and `expectedCount = 2` returns a single chunk, not two — the
blank-line rule returns its one-element partial result before the
approximate chunker is ever reached. -/
theorem C2_counterexample_two_chunks :
    split_paraphrases "hello world" 2 = ["hello world"] ∧
    (split_paraphrases "hello world" 2).length ≠ 2 := by
  constructor
  · decide
  · decide

/-- C2 (amended): for every non-empty input with no sentinel, no numbered
heading match, and no blank-line break, `split_paraphrases` returns exactly
one non-empty chunk — the whole trimmed input, which covers all of the
input's words in their original order — for *every* `expectedCount ≥ 1`;
the chunk count equals `expectedCount` only when `expectedCount = 1`. -/
theorem C2_plain_prose_single_chunk (text : String) (expected : Nat)
    (hne : pyStrip text ≠ "")
    (hsep : containsSub sepL (pyStrip text).data = false)
    (hhead : headingMatches (pyStrip text).data = [])
    (hnn : containsSub ['\n', '\n'] (pyStrip text).data = false)
    (hexp : 1 ≤ expected) :
    split_paraphrases text expected = [pyStrip text] := by
  have htext : text ≠ "" := by
    intro h
    subst h
    exact hne rfl
  have hcs : (pyStrip text).data ≠ [] := by
    intro h
    apply hne
    have hmk : pyStrip text = String.mk (pyStrip text).data := rfl
    rw [hmk, h]
  have hstrip : pyStripL (pyStrip text).data = (pyStrip text).data := by
    show pyStripL (pyStripL text.data) = pyStripL text.data
    exact pyStripL_idem text.data
  rw [split_paraphrases, if_neg htext]
  simp only [hsep, Bool.false_eq_true, if_false,
    headingStep_eq_none hhead, blankStep_no_break hcs hstrip hnn hexp]
  rfl

theorem C2_plain_prose_single_chunk_witness :
    (pyStrip "hello world" ≠ "" ∧
     containsSub sepL (pyStrip "hello world").data = false ∧
     headingMatches (pyStrip "hello world").data = [] ∧
     containsSub ['\n', '\n'] (pyStrip "hello world").data = false ∧
     (1 : Nat) ≤ 2) ∧
    split_paraphrases "hello world" 2 = [pyStrip "hello world"] :=
  ⟨⟨by decide, by decide, by decide, by decide, by decide⟩,
    C2_plain_prose_single_chunk "hello world" 2 (by decide) (by decide) (by decide)
      (by decide) (by decide)⟩

/-! ## Claim C8: the sentinel round trip -/

theorem rstripL_prefix (l : List Char) : ∃ t, l = rstripL l ++ t := by
  induction l with
  | nil => exact ⟨[], rfl⟩
  | cons c cs ih =>
    by_cases h : rstripL cs = []
    · by_cases hc : isSpaceB c = true
      · exact ⟨c :: cs, by simp [rstripL, h, hc]⟩
      · exact ⟨cs, by simp [rstripL, h, hc]⟩
    · rcases ih with ⟨t, ht⟩
      refine ⟨t, ?_⟩
      rw [rstripL, if_neg h, List.cons_append]
      exact congrArg (c :: ·) ht

/-- A safe segment stays safe after removing leading whitespace. -/
theorem safeSeg_lstripL {s : List Char} (h : SafeSeg s) : SafeSeg (lstripL s) := by
  unfold SafeSeg at h ⊢
  by_contra hcon
  rw [Bool.not_eq_false] at hcon
  have hocc : containsSub sepL (s ++ hash3) = true := by
    have hsplit : s = s.takeWhile isSpaceB ++ lstripL s :=
      (List.takeWhile_append_dropWhile isSpaceB s).symm
    rw [hsplit, List.append_assoc]
    exact containsSub_append_left _ hcon
  rw [hocc] at h
  cases h

/-- A safe segment keeps the separator out after removing trailing
whitespace. -/
theorem no_contain_rstripL {s : List Char} (h : SafeSeg s) :
    containsSub sepL (rstripL s) = false := by
  by_contra hcon
  rw [Bool.not_eq_false] at hcon
  rcases rstripL_prefix s with ⟨t, ht⟩
  have h1 : containsSub sepL s = true := by
    rw [ht]
    exact containsSub_append_right _ hcon
  have h2 : containsSub sepL (s ++ hash3) = true := containsSub_append_right _ h1
  unfold SafeSeg at h
  rw [h2] at h
  cases h

/-- Strip trailing whitespace from the last segment only. -/
def stripLastL : List (List Char) → List (List Char)
  | [] => []
  | [s] => [rstripL s]
  | s :: rest => s :: stripLastL rest

theorem stripLastL_cons_cons (s r : List Char) (rest : List (List Char)) :
    stripLastL (s :: r :: rest) = s :: stripLastL (r :: rest) := rfl

theorem stripLastL_ne_nil : ∀ {parts : List (List Char)}, parts ≠ [] →
    stripLastL parts ≠ [] := by
  intro parts h
  cases parts with
  | nil => exact absurd rfl h
  | cons s rest =>
    cases rest with
    | nil => simp [stripLastL]
    | cons r rs => simp [stripLastL_cons_cons]

theorem map_pyStripL_stripLastL : ∀ parts : List (List Char),
    (stripLastL parts).map pyStripL = parts.map pyStripL := by
  intro parts
  induction parts with
  | nil => rfl
  | cons s rest ih =>
    cases rest with
    | nil => simp [stripLastL, pyStripL_rstripL]
    | cons r rs =>
      rw [stripLastL_cons_cons, List.map_cons, List.map_cons, ih]

theorem dropLast_stripLastL : ∀ parts : List (List Char),
    (stripLastL parts).dropLast = parts.dropLast := by
  intro parts
  induction parts with
  | nil => rfl
  | cons s rest ih =>
    cases rest with
    | nil => rfl
    | cons r rs =>
      rw [stripLastL_cons_cons,
        List.dropLast_cons_of_ne_nil (stripLastL_ne_nil (by simp)),
        List.dropLast_cons_of_ne_nil (by simp), ih]

theorem getLast?_stripLastL : ∀ parts : List (List Char),
    (stripLastL parts).getLast? = parts.getLast?.map rstripL := by
  intro parts
  induction parts with
  | nil => rfl
  | cons s rest ih =>
    cases rest with
    | nil => rfl
    | cons r rs =>
      rw [stripLastL_cons_cons, List.getLast?_cons_cons, ← ih]
      cases hsl : stripLastL (r :: rs) with
      | nil => exact absurd hsl (stripLastL_ne_nil (by simp))
      | cons x xs => rw [List.getLast?_cons_cons]

theorem pyStrip_ne_empty_iff (s : String) : pyStrip s ≠ "" ↔ pyStripL s.data ≠ [] := by
  constructor
  · intro h hh
    apply h
    show String.mk (pyStripL s.data) = ""
    rw [hh]
  · intro h hh
    apply h
    have hd := congrArg String.data hh
    exact hd

theorem rstripL_joinSepL :
    ∀ (parts : List (List Char)), parts ≠ [] →
      (∀ x, parts.getLast? = some x → rstripL x ≠ []) →
      rstripL (joinSepL parts) = joinSepL (stripLastL parts) ∧
      joinSepL (stripLastL parts) ≠ [] := by
  intro parts
  induction parts with
  | nil =>
    intro h _
    exact absurd rfl h
  | cons s rest ih =>
    intro _ hlast
    cases rest with
    | nil =>
      refine ⟨rfl, ?_⟩
      show rstripL s ≠ []
      exact hlast s rfl
    | cons r rs =>
      have hlast' : ∀ x, (r :: rs).getLast? = some x → rstripL x ≠ [] := by
        intro x hx
        apply hlast x
        rw [List.getLast?_cons_cons]
        exact hx
      have IH := ih (by simp) hlast'
      have hJ0 : rstripL (joinSepL (r :: rs)) ≠ [] := by
        rw [IH.1]
        exact IH.2
      have h1 : rstripL (sepL ++ joinSepL (r :: rs))
          = sepL ++ rstripL (joinSepL (r :: rs)) :=
        rstripL_append_of_ne_nil sepL hJ0
      have h2 : rstripL (sepL ++ joinSepL (r :: rs)) ≠ [] := by
        rw [h1]
        intro hh
        exact sepL_ne_nil (List.append_eq_nil.mp hh).1
      constructor
      · rw [joinSepL_cons_cons, rstripL_append_of_ne_nil s h2, h1, IH.1]
        cases hsl : stripLastL (r :: rs) with
        | nil => exact absurd hsl (stripLastL_ne_nil (by simp))
        | cons x xs =>
          rw [stripLastL_cons_cons, hsl, joinSepL_cons_cons]
      · rw [stripLastL_cons_cons]
        cases hsl : stripLastL (r :: rs) with
        | nil => exact absurd hsl (stripLastL_ne_nil (by simp))
        | cons x xs =>
          rw [joinSepL_cons_cons]
          intro hh
          exact sepL_ne_nil (List.append_eq_nil.mp (List.append_eq_nil.mp hh).2).1


/-- C8 (amended): for every list of at least two non-blank segments in which
the separator token does not occur — not even at the junction with a
following separator (`SafeSeg`) — splitting the separator-joined string with
`expected` equal to the number of segments returns exactly those segments,
trimmed, in their original order. -/
theorem C8_sentinel_round_trip (segs : List String)
    (h2 : 2 ≤ segs.length)
    (hs : ∀ s ∈ segs, pyStrip s ≠ "" ∧ SafeSeg s.data) :
    split_paraphrases (sepJoin segs) segs.length = segs.map pyStrip := by
  obtain ⟨s1, rest1, rfl⟩ : ∃ a l, segs = a :: l := by
    cases segs with
    | nil => simp at h2
    | cons a l => exact ⟨a, l, rfl⟩
  obtain ⟨s2, rest2, rfl⟩ : ∃ a l, rest1 = a :: l := by
    cases rest1 with
    | nil => simp at h2
    | cons a l => exact ⟨a, l, rfl⟩
  have hdata : (sepJoin (s1 :: s2 :: rest2)).data
      = joinSepL (s1.data :: s2.data :: rest2.map String.data) := rfl
  have hl1 : lstripL s1.data ≠ [] :=
    lstripL_ne_nil_of_pyStripL_ne_nil
      ((pyStrip_ne_empty_iff s1).mp (hs s1 (by simp)).1)
  have hlastpr : ∀ x, (s2.data :: rest2.map String.data).getLast? = some x →
      rstripL x ≠ [] := by
    intro x hx
    have hx2 : ((s2 :: rest2).map String.data).getLast? = some x := by
      simpa using hx
    rw [List.getLast?_map] at hx2
    cases hgl : (s2 :: rest2).getLast? with
    | none =>
      rw [hgl] at hx2
      cases hx2
    | some t =>
      rw [hgl] at hx2
      have hmem : t ∈ s2 :: rest2 := by
        rcases List.mem_getLast?_eq_getLast (show t ∈ (s2 :: rest2).getLast? by
          rw [hgl]; rfl) with ⟨hne9, heq9⟩
        rw [heq9]
        exact List.getLast_mem hne9
      have hP := (hs t (by simp [hmem])).1
      injection hx2 with hx'
      rw [← hx']
      exact rstripL_ne_nil_of_pyStripL_ne_nil ((pyStrip_ne_empty_iff t).mp hP)
  have hLJ : lstripL (joinSepL (s1.data :: s2.data :: rest2.map String.data))
      = joinSepL (lstripL s1.data :: s2.data :: rest2.map String.data) := by
    rw [joinSepL_cons_cons, joinSepL_cons_cons]
    exact lstripL_append_of_ne_nil _ hl1
  have hlast0 : ∀ x, (lstripL s1.data :: s2.data :: rest2.map String.data).getLast?
      = some x → rstripL x ≠ [] := by
    intro x hx
    rw [List.getLast?_cons_cons] at hx
    exact hlastpr x hx
  have hRJ := rstripL_joinSepL (lstripL s1.data :: s2.data :: rest2.map String.data)
    (by simp) hlast0
  have hstrip : pyStripL (joinSepL (s1.data :: s2.data :: rest2.map String.data))
      = joinSepL (lstripL s1.data :: stripLastL (s2.data :: rest2.map String.data)) := by
    show rstripL (lstripL (joinSepL (s1.data :: s2.data :: rest2.map String.data))) = _
    rw [hLJ, hRJ.1, stripLastL_cons_cons]
  have htext : sepJoin (s1 :: s2 :: rest2) ≠ "" := by
    intro hh
    have hd := congrArg String.data hh
    rw [hdata, joinSepL_cons_cons] at hd
    exact sepL_ne_nil (List.append_eq_nil.mp (List.append_eq_nil.mp hd).2).1
  have hcs : (pyStrip (sepJoin (s1 :: s2 :: rest2))).data
      = joinSepL (lstripL s1.data :: stripLastL (s2.data :: rest2.map String.data)) := by
    show pyStripL (sepJoin (s1 :: s2 :: rest2)).data = _
    rw [hdata, hstrip]
  have hcontains : containsSub sepL
      (joinSepL (lstripL s1.data :: stripLastL (s2.data :: rest2.map String.data)))
      = true := by
    cases hsl : stripLastL (s2.data :: rest2.map String.data) with
    | nil => exact absurd hsl (stripLastL_ne_nil (by simp))
    | cons x xs =>
      rw [joinSepL_cons_cons]
      apply containsSub_append_left
      exact containsSub_of_leadsWith_drop 0
        (by simpa using leadsWith_self_append sepL (joinSepL (x :: xs)))
  have hL : (lstripL s1.data :: stripLastL (s2.data :: rest2.map String.data)
      : List (List Char)) ≠ [] := by simp
  have hinit : ∀ x ∈ (lstripL s1.data
      :: stripLastL (s2.data :: rest2.map String.data)).dropLast, SafeSeg x := by
    intro x hx
    cases hsl : stripLastL (s2.data :: rest2.map String.data) with
    | nil => exact absurd hsl (stripLastL_ne_nil (by simp))
    | cons y ys =>
      rw [hsl, List.dropLast_cons_of_ne_nil (by simp)] at hx
      rcases List.mem_cons.mp hx with rfl | hx2
      · exact safeSeg_lstripL (hs s1 (by simp)).2
      · have hx3 : x ∈ (stripLastL (s2.data :: rest2.map String.data)).dropLast := by
          rw [hsl]
          exact hx2
        rw [dropLast_stripLastL] at hx3
        have hx4 : x ∈ s2.data :: rest2.map String.data :=
          List.dropLast_subset _ hx3
        have hx5 : x ∈ (s2 :: rest2).map String.data := by simpa using hx4
        rcases List.mem_map.mp hx5 with ⟨t, ht, rfl⟩
        exact (hs t (by simp [ht])).2
  have hlastL : containsSub sepL
      ((lstripL s1.data :: stripLastL (s2.data :: rest2.map String.data)).getLast hL)
      = false := by
    have h1 := List.getLast?_eq_getLast
      (lstripL s1.data :: stripLastL (s2.data :: rest2.map String.data)) hL
    have hgl2 : (lstripL s1.data :: stripLastL (s2.data :: rest2.map String.data)).getLast?
        = (stripLastL (s2.data :: rest2.map String.data)).getLast? := by
      cases hsl : stripLastL (s2.data :: rest2.map String.data) with
      | nil => exact absurd hsl (stripLastL_ne_nil (by simp))
      | cons y ys => rw [List.getLast?_cons_cons]
    rw [hgl2, getLast?_stripLastL] at h1
    have hglm : (s2.data :: rest2.map String.data).getLast?
        = ((s2 :: rest2).map String.data).getLast? := rfl
    rw [hglm, List.getLast?_map] at h1
    cases hgl : (s2 :: rest2).getLast? with
    | none =>
      rw [hgl] at h1
      cases h1
    | some t =>
      rw [hgl] at h1
      have hteq : rstripL t.data
          = (lstripL s1.data
              :: stripLastL (s2.data :: rest2.map String.data)).getLast hL := by
        have hmapeq : (Option.map String.data (some t)).map rstripL
            = some (rstripL t.data) := rfl
        rw [hmapeq] at h1
        exact Option.some.inj h1
      rw [← hteq]
      have hmem : t ∈ s2 :: rest2 := by
        rcases List.mem_getLast?_eq_getLast (show t ∈ (s2 :: rest2).getLast? by
          rw [hgl]; rfl) with ⟨hne9, heq9⟩
        rw [heq9]
        exact List.getLast_mem hne9
      exact no_contain_rstripL (hs t (by simp [hmem])).2
  have hsplit := pySplitSep_joinSepL
    (lstripL s1.data :: stripLastL (s2.data :: rest2.map String.data)) hL hinit hlastL
  have hmapped : (lstripL s1.data
      :: stripLastL (s2.data :: rest2.map String.data)).map pyStripL
      = (s1 :: s2 :: rest2).map (fun s => pyStripL s.data) := by
    rw [List.map_cons, pyStripL_lstripL, map_pyStripL_stripLastL]
    have : (s2.data :: rest2.map String.data) = (s2 :: rest2).map String.data := rfl
    rw [this, List.map_map, List.map_cons]
    rfl
  have hfilter : ((s1 :: s2 :: rest2).map (fun s => pyStripL s.data)).filter
        (fun p => p ≠ [])
      = (s1 :: s2 :: rest2).map (fun s => pyStripL s.data) := by
    apply List.filter_eq_self.mpr
    intro x hx
    rcases List.mem_map.mp hx with ⟨t, ht, rfl⟩
    simpa using (pyStrip_ne_empty_iff t).mp (hs t ht).1
  rw [split_paraphrases, if_neg htext]
  simp only [hcs, hcontains, if_true, hsplit, hmapped, hfilter]
  rw [if_pos (by simp)]
  rw [List.take_of_length_le (by simp), List.map_map]
  rfl

/-- C8 counterexample: the round trip fails for segments the claim allows.
A segment may itself interact with the separator — `"x###PARAPHRASE_SEPARATOR"`
joined with `"y"` splits at an overlapping occurrence, yielding
`["x", "PARAPHRASE_SEPARATOR###y"]` — and a single segment (`n = 1`) has no
separator in the joined text at all, so the heading rule fires on
`"1. hello"` and returns `["hello"]`. -/
theorem C8_counterexample_round_trip :
    split_paraphrases (sepJoin ["x###PARAPHRASE_SEPARATOR", "y"]) 2
      ≠ ["x###PARAPHRASE_SEPARATOR", "y"] ∧
    split_paraphrases (sepJoin ["1. hello"]) 1 ≠ ["1. hello"] := by
  constructor
  · decide
  · decide

instance (s : List Char) : Decidable (SafeSeg s) := by
  unfold SafeSeg
  infer_instance

theorem C8_sentinel_round_trip_witness :
    ((2 : Nat) ≤ (["a", "b"] : List String).length ∧
      ∀ s ∈ (["a", "b"] : List String), pyStrip s ≠ "" ∧ SafeSeg s.data) ∧
    split_paraphrases (sepJoin ["a", "b"]) 2 = (["a", "b"] : List String).map pyStrip :=
  ⟨⟨by decide, by decide⟩,
    C8_sentinel_round_trip ["a", "b"] (by decide) (by decide)⟩
